import Mathlib

/-!
Verification development for the word-graph backend
(`backend/src/backend/word_graph.py`): a Flask endpoint that asks a
text-generation collaborator for concept entries, extracts a JSON object
from the free-text reply, infers correlations between entries, and shapes
the result into a node/edge graph payload.
-/

namespace WordGraph

/-- Python's `str.lower()` (ASCII behaviour), as used by `.lower()` calls
in `generate_word_graph`. -/
def lowerStr (s : String) : String := ⟨s.data.map Char.toLower⟩

/-- A parsed word entry, i.e. one element of the decoded `words` list.
Each field is `Option`al because a JSON object may lack the key: a `none`
field models a missing dictionary key (Python raises `KeyError` when such
a key is indexed with `[...]`, while `.get(k, default)` substitutes the
default). -/
structure WordEntry where
  term : Option String
  summary : Option String
  description : Option String
  related_concepts : Option (List String)
  examples : Option (List String)
  deriving Repr, DecidableEq

/-- One inferred correlation, as appended to the `correlations` list:
`{'source': f"node-{i}", 'target': f"node-{j}", 'explanation': ...}`. -/
structure Corr where
  source : String
  target : String
  explanation : String
  deriving Repr, DecidableEq

/-- `f"node-{i}"`. -/
def nodeId (i : Nat) : String := "node-" ++ Nat.repr i

/-- The `term_to_index` dictionary comprehension
`{word['term'].lower(): i for i, word in enumerate(words)}`, modelled as
the ordered list of (lowercased term, index) insertions; a Python dict
lookup observes the *last* insertion for a key (see `lookupLast`). -/
def mkTermToIndex (terms : List String) : List (String × Nat) :=
  terms.enum.map (fun p => (lowerStr p.2, p.1))

/-- Lookup in an insertion-ordered association list with Python-dict
semantics: the last insertion for a key wins. -/
def lookupLast (l : List (String × Nat)) (k : String) : Option Nat :=
  (l.reverse.find? (fun p => p.1 == k)).map (fun p => p.2)

/-- Forward scan for entry `i` (term `t`, related concepts `rc`): for each
related concept `c` in list order, if `c.lower()` is a key of
`term_to_index` mapping to `j` and `i != j`, append
`(node-i, node-j, f"{term_i} includes {c} as a related concept")`. -/
def forwardFor (tti : List (String × Nat)) (i : Nat) (t : String)
    (rc : List String) : List Corr :=
  rc.filterMap (fun c =>
    match lookupLast tti (lowerStr c) with
    | some j =>
        if i ≠ j then
          some ⟨nodeId i, nodeId j, t ++ " includes " ++ c ++ " as a related concept"⟩
        else none
    | none => none)

/-- Reverse scan for entry `i` (term `t`): for each entry `j` (in index
order) with `i != j`, if any of entry `j`'s related concepts equals `t`
case-insensitively, append
`(node-j, node-i, f"{term_j} includes {term_i} as a related concept")`.
The input `ws` is the enumerated list of (term, related_concepts) pairs. -/
def reverseFor (ws : List (Nat × String × List String)) (i : Nat)
    (t : String) : List Corr :=
  ws.filterMap (fun q =>
    if i ≠ q.1 ∧ (q.2.2.any (fun related => lowerStr t == lowerStr related)) then
      some ⟨nodeId q.1, nodeId i, q.2.1 ++ " includes " ++ t ++ " as a related concept"⟩
    else none)

/-- The correlation-inference loop of `generate_word_graph` on the list of
(term, related_concepts) pairs — `related_concepts` already defaulted to
`[]` by `.get('related_concepts', [])`. For each entry `i` the forward
scan's appends happen first, then the reverse scan's. -/
def inferCorrelations (ws : List (String × List String)) : List Corr :=
  let tti := mkTermToIndex (ws.map (fun w => w.1))
  (ws.enum).flatMap (fun p =>
    forwardFor tti p.1 p.2.1 p.2.2 ++ reverseFor ws.enum p.1 p.2.1)

/-- The reverse-scan correlations alone, in emission order (outer loop
`i` in index order, inner loop `j` in index order). -/
def reverseCorrs (ws : List (String × List String)) : List Corr :=
  (ws.enum).flatMap (fun p => reverseFor ws.enum p.1 p.2.1)

/-- The reverse scan as claim C1 words it: for each ordered pair `(i, j)`
of distinct entries (index order for `i`, then for `j`), exactly when
entry `j`'s term appears case-insensitively anywhere in entry `i`'s
related-concepts list, emit the correlation `(j, i)` with explanation
`<term_j> includes <term_i> as a related concept`. -/
def claimedReverseScan (ws : List (String × List String)) : List Corr :=
  (List.range ws.length).flatMap (fun i =>
    (List.range ws.length).filterMap (fun j =>
      match ws.get? i, ws.get? j with
      | some wi, some wj =>
        if i ≠ j ∧ (wi.2.any (fun c => lowerStr c == lowerStr wj.1)) then
          some ⟨nodeId j, nodeId i,
                wj.1 ++ " includes " ++ wi.1 ++ " as a related concept"⟩
        else none
      | _, _ => none))

/-- The reverse scan as claim C1 reads after amendment: the membership
condition tests entry `i`'s term against entry `j`'s related-concepts
list (not the other way around); emission target and explanation are
unchanged. -/
def amendedReverseScan (ws : List (String × List String)) : List Corr :=
  (List.range ws.length).flatMap (fun i =>
    (List.range ws.length).filterMap (fun j =>
      match ws.get? i, ws.get? j with
      | some wi, some wj =>
        if i ≠ j ∧ (wj.2.any (fun c => lowerStr c == lowerStr wi.1)) then
          some ⟨nodeId j, nodeId i,
                wj.1 ++ " includes " ++ wi.1 ++ " as a related concept"⟩
        else none
      | _, _ => none))

/-! Node and edge assembly -/

/-- The `data` object of a React Flow node. -/
structure NodeData where
  label : String
  summary : String
  description : String
  relatedTopics : List String
  examples : List String
  deriving Repr, DecidableEq

/-- The `position` object of a node: `{'x': i * 250, 'y': 0}`. -/
structure Position where
  x : Nat
  y : Nat
  deriving Repr, DecidableEq

/-- One node of the success payload. -/
structure Node where
  id : String
  data : NodeData
  position : Position
  type : String
  sourcePosition : String
  targetPosition : String
  deriving Repr, DecidableEq

/-- Build the node for entry `i`, reading the five dictionary keys in the
order the node literal reads them (`term`, `summary`, `description`,
`related_concepts`, `examples`); a missing key raises `KeyError`, modelled
as an error carrying the Python `str(KeyError(k))` text. -/
def mkNode (i : Nat) (w : WordEntry) : Except String Node :=
  match w.term with
  | none => Except.error "'term'"
  | some t =>
  match w.summary with
  | none => Except.error "'summary'"
  | some su =>
  match w.description with
  | none => Except.error "'description'"
  | some de =>
  match w.related_concepts with
  | none => Except.error "'related_concepts'"
  | some rc =>
  match w.examples with
  | none => Except.error "'examples'"
  | some ex =>
    Except.ok { id := nodeId i, data := ⟨t, su, de, rc, ex⟩,
                position := ⟨i * 250, 0⟩, type := "wordNode",
                sourcePosition := "right", targetPosition := "left" }

/-- The `nodes` list comprehension over `enumerate(words)`, starting at
index `i`; the first entry with a missing key aborts the comprehension. -/
def mkNodesFrom : Nat → List WordEntry → Except String (List Node)
  | _, [] => Except.ok []
  | i, w :: ws =>
    match mkNode i w with
    | Except.error e => Except.error e
    | Except.ok n =>
      match mkNodesFrom (i + 1) ws with
      | Except.error e => Except.error e
      | Except.ok ns => Except.ok (n :: ns)

/-- `nodes = [... for i, word in enumerate(words)]`. -/
def mkNodesE (words : List WordEntry) : Except String (List Node) :=
  mkNodesFrom 0 words

/-- The `style` object of an edge. -/
structure EdgeStyle where
  stroke : String
  strokeWidth : Nat
  deriving Repr, DecidableEq

/-- One edge of the success payload; `explanation` is the single field of
the edge's `data` object. -/
structure Edge where
  id : String
  source : String
  target : String
  animated : Bool
  style : EdgeStyle
  explanation : String
  deriving Repr, DecidableEq

/-- The `edges` list comprehension over `enumerate(correlations)`. -/
def mkEdges (cs : List Corr) : List Edge :=
  cs.enum.map (fun p =>
    { id := "edge-" ++ Nat.repr p.1, source := p.2.source,
      target := p.2.target, animated := true,
      style := ⟨"#3b82f6", 2⟩, explanation := p.2.explanation })

/-- The collection of terms for `term_to_index`: the dict comprehension
reads `word['term']` for every entry and raises `KeyError` at the first
entry lacking the key. -/
def getTerms : List WordEntry → Option (List String)
  | [] => some []
  | w :: ws =>
    match w.term with
    | none => none
    | some t =>
      match getTerms ws with
      | none => none
      | some ts => some (t :: ts)

/-- `word.get('related_concepts', [])`. -/
def rcOf (w : WordEntry) : List String := w.related_concepts.getD []

/-- The correlation phase on parsed entries: build `term_to_index` (which
requires every entry's `term` key) and run the two scans; the scans
themselves only read `term` and `related_concepts`-with-default. -/
def correlationsE (words : List WordEntry) : Except String (List Corr) :=
  match getTerms words with
  | none => Except.error "'term'"
  | some ts => Except.ok (inferCorrelations (ts.zip (words.map rcOf)))

/-- The success payload `{'nodes': ..., 'edges': ...}`. -/
structure Payload where
  nodes : List Node
  edges : List Edge
  deriving Repr, DecidableEq

/-- Correlation inference, node assembly and edge assembly, in the order
the handler performs them (correlations before nodes, nodes before
edges). -/
def processEntries (words : List WordEntry) : Except String Payload :=
  match correlationsE words with
  | Except.error e => Except.error e
  | Except.ok cs =>
    match mkNodesE words with
    | Except.error e => Except.error e
    | Except.ok ns => Except.ok ⟨ns, mkEdges cs⟩

/-! JSON values, span extraction and the response-parsing phase -/

/-- A JSON value, as produced by the standard-library JSON decoder. -/
inductive Json where
  | null
  | bool (b : Bool)
  | num (n : Int)
  | str (s : String)
  | arr (elems : List Json)
  | obj (fields : List (String × Json))
  deriving Repr

/-- Python-dict lookup on a decoded JSON object: with duplicate keys the
decoder keeps the last occurrence. -/
def jLookup (fs : List (String × Json)) (k : String) : Option Json :=
  (fs.reverse.find? (fun p => p.1 == k)).map (fun p => p.2)

/-- The character U+007B (opening curly bracket). -/
def lbrace : Char := Char.ofNat 123

/-- The character U+007D (closing curly bracket). -/
def rbrace : Char := Char.ofNat 125

/-- Index of the first opening curly bracket of the text, if any. -/
def firstBrace : List Char → Option Nat
  | [] => none
  | c :: cs => if c = lbrace then some 0 else (firstBrace cs).map (fun k => k + 1)

/-- Index of the last closing curly bracket of the text, if any. -/
def lastClose : List Char → Option Nat
  | [] => none
  | c :: cs =>
    match lastClose cs with
    | some k => some (k + 1)
    | none => if c = rbrace then some 0 else none

/-- `re.search(r'\x7b.*\x7d', text, re.DOTALL)`: with `.` matching
newlines, a greedy match runs from the first opening curly bracket to the
last closing curly bracket of the whole text, provided that closing
bracket comes after the opening one; otherwise there is no match. -/
def jsonSpan (s : String) : Option String :=
  match firstBrace s.data, lastClose s.data with
  | some i, some j =>
    if i < j then some ⟨(s.data.drop i).take (j + 1 - i)⟩ else none
  | _, _ => none

/-- Convert a decoded JSON value into a `WordEntry`. A field is `none`
when the key is absent or its value does not have the type the handler's
accesses assume; in the reference both cases raise at the value's first
use (`KeyError` resp. `TypeError`/`AttributeError`) and surface as the
same 500 response. -/
def entryOf (j : Json) : WordEntry :=
  match j with
  | Json.obj fs =>
    { term :=
        match jLookup fs "term" with
        | some (Json.str s) => some s
        | _ => none
      summary :=
        match jLookup fs "summary" with
        | some (Json.str s) => some s
        | _ => none
      description :=
        match jLookup fs "description" with
        | some (Json.str s) => some s
        | _ => none
      related_concepts :=
        match jLookup fs "related_concepts" with
        | some (Json.arr xs) =>
          xs.mapM (fun x => match x with | Json.str s => some s | _ => none)
        | _ => none
      examples :=
        match jLookup fs "examples" with
        | some (Json.arr xs) =>
          xs.mapM (fun x => match x with | Json.str s => some s | _ => none)
        | _ => none }
  | _ => ⟨none, none, none, none, none⟩

/-- The value under `words` must be a JSON array to be enumerable as
entries; enumerating any other value raises in the reference
(`TypeError`), surfacing as the 500 response. -/
def entriesOf : Json → Except String (List WordEntry)
  | Json.arr xs => Except.ok (xs.map entryOf)
  | _ => Except.error "TypeError"

/-- The `isinstance(words_data, dict) and 'words' in words_data` test. -/
def hasWordsDict : Json → Bool
  | Json.obj fs => (jLookup fs "words").isSome
  | _ => false

/-- Processing of the extracted span: JSON decoding by the standard
library (`decode`, abstract here; failure surfaces as
`Failed to parse JSON`), the schema check
`isinstance(words_data, dict) and 'words' in words_data`
(`Invalid JSON structure` otherwise), then correlation inference and
node/edge assembly. -/
def decodeStage (sub : String) (decode : String → Option Json) :
    Except String Payload :=
  match decode sub with
  | none => Except.error "Failed to parse JSON"
  | some v =>
    match v with
    | Json.obj fs =>
      match jLookup fs "words" with
      | none => Except.error "Invalid JSON structure"
      | some w =>
        match entriesOf w with
        | Except.error e => Except.error e
        | Except.ok entries => processEntries entries
    | _ => Except.error "Invalid JSON structure"

/-- The response-processing phase, from the raw response text to the
payload: greedy span extraction (`ValueError` with
`Could not find JSON in response` if no span), then `decodeStage` applied
to exactly the extracted substring. -/
def afterText (text : String) (decode : String → Option Json) :
    Except String Payload :=
  match jsonSpan text with
  | none => Except.error "Could not find JSON in response"
  | some sub => decodeStage sub decode

/-- The response text of testable property §8.5: prose wrapping a JSON
object. -/
def exText : String :=
  "Here is the result: \x7b\"words\":[]\x7d Thanks!"

/-- Replace a missing `related_concepts` key by the empty list the
correlation scans substitute for it. -/
def fillRc (w : WordEntry) : WordEntry :=
  { w with related_concepts := some (rcOf w) }

/-- Concrete entry list for the missing-key scenario: all keys present
except `related_concepts`. -/
def exMissing : List WordEntry :=
  [⟨some "A", some "s", some "d", none, some []⟩]

/-- Decoded response carrying `exMissing`: a `words` object whose single
entry lacks the `related_concepts` key. -/
def exMissingJson : Json :=
  Json.obj [("words", Json.arr
    [Json.obj [("term", Json.str "A"), ("summary", Json.str "s"),
               ("description", Json.str "d"), ("examples", Json.arr [])]])]

/-- Concrete decoder for the schema-failure scenario. -/
def exBadDecode : String → Option Json := fun s =>
  if s == "\x7b\"notwords\": []\x7d" then
    some (Json.obj [("notwords", Json.arr [])])
  else none

/-- Concrete response text for the schema-failure scenario. -/
def exBadText : String := "\x7b\"notwords\": []\x7d"

/-! Environment, startup, prompt and the request handler -/

/-- The request body: a JSON object whose `topic` and `num_words` keys are
both optional (`data.get(k, default)`). -/
structure RequestBody where
  topic : Option String
  num_words : Option Int
  deriving Repr, DecidableEq

/-- The two credential environment variables. -/
structure Env where
  google : Option String
  gemini : Option String
  deriving Repr, DecidableEq

/-- Python truthiness of an optional string (`if not api_key`): unset and
empty both count as absent. -/
def truthy : Option String → Bool
  | none => false
  | some s => !(s == "")

/-- Module-load credential resolution: read `GOOGLE_API_KEY`; if falsy,
read `GEMINI_API_KEY` and, when that is truthy, copy it into
`GOOGLE_API_KEY` for the rest of the process lifetime. Returns the
environment as later request handling observes it. -/
def startup (e : Env) : Env :=
  if truthy e.google then e
  else if truthy e.gemini then { e with google := e.gemini } else e

/-- The prompt f-string, with `num_words` and `topic` interpolated (curly
brackets of the JSON template written as escapes). -/
def buildPrompt (topic : String) (num_words : Int) : String :=
  "Generate " ++ toString num_words ++ " key concepts or terms related to "
    ++ topic ++ ".\n"
  ++ "        For each term, provide:\n"
  ++ "        1. A brief summary (1-2 sentences)\n"
  ++ "        2. A detailed description (2-3 paragraphs)\n"
  ++ "        3. 2-3 related concepts (IMPORTANT: make sure these are actual terms that could appear as other nodes)\n"
  ++ "        4. 2-3 practical examples or use cases\n"
  ++ "        \n"
  ++ "        Format the response as a JSON object with the following structure:\n"
  ++ "        \x7b\n"
  ++ "            \"words\": [\n"
  ++ "                \x7b\n"
  ++ "                    \"term\": \"term name\",\n"
  ++ "                    \"summary\": \"brief summary\",\n"
  ++ "                    \"description\": \"detailed description\",\n"
  ++ "                    \"related_concepts\": [\"concept1\", \"concept2\"],\n"
  ++ "                    \"examples\": [\"example1\", \"example2\"]\n"
  ++ "                \x7d\n"
  ++ "            ]\n"
  ++ "        \x7d"

/-- The HTTP response: the 200 success payload, or the 500
`{'error': message}` shape produced by the outermost exception handler. -/
inductive Resp where
  | success (nodes : List Node) (edges : List Edge)
  | failure (error : String)
  deriving Repr

/-- HTTP status code of a response. -/
def Resp.status : Resp → Nat
  | Resp.success _ _ => 200
  | Resp.failure _ => 500

/-- The `POST /api/word-graph/generate` handler, parameterised by the
post-startup environment, the generation collaborator `gen` (the model
call: prompt to generated text, or an exception message) and the
standard-library JSON decoder `decode`. Defaults the two body keys,
re-checks the credential, calls the collaborator (wrapping its failures
and the empty-text check in `Error calling Gemini API: ...`), then runs
the response-processing phase; every error becomes the 500 response. -/
def handleRequest (body : RequestBody) (env : Env)
    (gen : String → Except String String)
    (decode : String → Option Json) : Resp :=
  let topic := body.topic.getD "Technology"
  let num_words := body.num_words.getD 5
  if !(truthy env.google) then
    Resp.failure "GOOGLE_API_KEY environment variable not set"
  else
    match gen (buildPrompt topic num_words) with
    | Except.error e => Resp.failure ("Error calling Gemini API: " ++ e)
    | Except.ok text =>
      if text == "" then
        Resp.failure "Error calling Gemini API: Empty response from Gemini"
      else
        match afterText text decode with
        | Except.error e => Resp.failure e
        | Except.ok p => Resp.success p.nodes p.edges

/-! Concrete example inputs used by several concrete statements -/

/-- The two-entry example of §8.4: term `A` lists `B` as a related
concept, `B` lists nothing (the remaining fields filled with stand-in
strings so that node assembly succeeds). -/
def exEntriesAB : List WordEntry :=
  [⟨some "A", some "sA", some "dA", some ["B"], some ["eA"]⟩,
   ⟨some "B", some "sB", some "dB", some [], some ["eB"]⟩]

/-- The payload the handler produces for `exEntriesAB` (checked below by
kernel evaluation): two nodes and two parallel `node-0 -> node-1` edges,
one from the forward scan and one from the reverse scan. -/
def exPayloadAB : Payload :=
  { nodes :=
      [{ id := "node-0",
         data := ⟨"A", "sA", "dA", ["B"], ["eA"]⟩,
         position := ⟨0, 0⟩, type := "wordNode",
         sourcePosition := "right", targetPosition := "left" },
       { id := "node-1",
         data := ⟨"B", "sB", "dB", [], ["eB"]⟩,
         position := ⟨250, 0⟩, type := "wordNode",
         sourcePosition := "right", targetPosition := "left" }],
    edges :=
      [{ id := "edge-0", source := "node-0", target := "node-1",
         animated := true, style := ⟨"#3b82f6", 2⟩,
         explanation := "A includes B as a related concept" },
       { id := "edge-1", source := "node-0", target := "node-1",
         animated := true, style := ⟨"#3b82f6", 2⟩,
         explanation := "A includes B as a related concept" }] }

/-- An entry carries all five keys the node literal reads. -/
def hasAllKeys (w : WordEntry) : Prop :=
  w.term.isSome = true ∧ w.summary.isSome = true ∧
    w.description.isSome = true ∧ w.related_concepts.isSome = true ∧
    w.examples.isSome = true

instance (w : WordEntry) : Decidable (hasAllKeys w) := by
  unfold hasAllKeys; infer_instance

/-! Decimal-numeral facts about `Nat.repr`, needed because node
identifiers are the rendered strings `node-<index>`. -/

/-- Numeric value of a decimal digit character. -/
def digitVal (c : Char) : Nat := c.toNat - 48

/-- Numeric value of a decimal numeral (list of digit characters). -/
def digitsVal (ds : List Char) : Nat :=
  ds.foldl (fun a c => a * 10 + digitVal c) 0

theorem digitVal_digitChar (d : Nat) (hd : d < 10) :
    digitVal (Nat.digitChar d) = d := by
  interval_cases d <;> rfl

theorem toDigitsCore_append (fuel : Nat) :
    ∀ (n : Nat) (acc : List Char),
      Nat.toDigitsCore 10 fuel n acc = Nat.toDigitsCore 10 fuel n [] ++ acc := by
  induction fuel with
  | zero => intro n acc; simp [Nat.toDigitsCore]
  | succ f ih =>
    intro n acc
    unfold Nat.toDigitsCore
    by_cases h : n / 10 = 0
    · simp [h]
    · simp only [h, if_false]
      rw [ih (n / 10) (Nat.digitChar (n % 10) :: acc),
          ih (n / 10) [Nat.digitChar (n % 10)], List.append_assoc]
      rfl

theorem toDigitsCore_fuel :
    ∀ (n f1 f2 : Nat), n < f1 → n < f2 →
      Nat.toDigitsCore 10 f1 n [] = Nat.toDigitsCore 10 f2 n [] := by
  intro n
  induction n using Nat.strong_induction_on with
  | _ n ih =>
    intro f1 f2 h1 h2
    match f1, f2 with
    | a + 1, b + 1 =>
      unfold Nat.toDigitsCore
      by_cases h : n / 10 = 0
      · simp [h]
      · simp only [h, if_false]
        have hn : 0 < n := by
          rcases Nat.eq_zero_or_pos n with h0 | h0
          · exact absurd (by simp [h0]) h
          · exact h0
        have hlt : n / 10 < n := Nat.div_lt_self hn (by decide)
        rw [toDigitsCore_append a (n / 10), toDigitsCore_append b (n / 10),
            ih (n / 10) hlt a b (by omega) (by omega)]

theorem digitsVal_toDigits (n : Nat) : digitsVal (Nat.toDigits 10 n) = n := by
  induction n using Nat.strong_induction_on with
  | _ n ih =>
    unfold Nat.toDigits Nat.toDigitsCore
    by_cases h : n / 10 = 0
    · have hlt10 : n < 10 := by omega
      have hmod : n % 10 = n := by omega
      simp [h, digitsVal, hmod, digitVal_digitChar n hlt10]
    · have hn : 0 < n := by
        rcases Nat.eq_zero_or_pos n with h0 | h0
        · exact absurd (by simp [h0]) h
        · exact h0
      have hlt : n / 10 < n := Nat.div_lt_self hn (by decide)
      simp only [h, if_false]
      rw [toDigitsCore_append n (n / 10),
          toDigitsCore_fuel (n / 10) n (n / 10 + 1) (by omega) (by omega)]
      have : Nat.toDigitsCore 10 (n / 10 + 1) (n / 10) [] = Nat.toDigits 10 (n / 10) := rfl
      rw [this]
      have hv : digitsVal (Nat.toDigits 10 (n / 10) ++ [Nat.digitChar (n % 10)]) =
          digitsVal (Nat.toDigits 10 (n / 10)) * 10 + digitVal (Nat.digitChar (n % 10)) := by
        simp [digitsVal, List.foldl_append]
      rw [hv, ih (n / 10) hlt, digitVal_digitChar (n % 10) (Nat.mod_lt n (by decide))]
      omega

theorem natRepr_inj {m n : Nat} (h : Nat.repr m = Nat.repr n) : m = n := by
  have hdata : (Nat.toDigits 10 m) = (Nat.toDigits 10 n) := by
    have := congrArg String.data h
    simpa [Nat.repr, List.asString] using this
  have := congrArg digitsVal hdata
  rwa [digitsVal_toDigits, digitsVal_toDigits] at this

theorem nodeId_inj {m n : Nat} (h : nodeId m = nodeId n) : m = n := by
  apply natRepr_inj
  have hdata := congrArg String.data h
  simp only [nodeId, String.data_append] at hdata
  exact String.ext (List.append_cancel_left hdata)

/-- Every correlation appended by either scan carries two rendered node
indices that the `i != j` guard made distinct. -/
theorem corr_endpoints (ws : List (String × List String)) (c : Corr)
    (hc : c ∈ inferCorrelations ws) :
    ∃ i j, i ≠ j ∧ c.source = nodeId i ∧ c.target = nodeId j := by
  unfold inferCorrelations at hc
  rw [List.mem_flatMap] at hc
  obtain ⟨p, _, hp⟩ := hc
  rw [List.mem_append] at hp
  rcases hp with hf | hr
  · rw [forwardFor, List.mem_filterMap] at hf
    obtain ⟨a, _, ha⟩ := hf
    rcases hl : lookupLast (mkTermToIndex (ws.map (fun w => w.1))) (lowerStr a) with _ | j
    · rw [hl] at ha; exact absurd ha (by simp)
    · rw [hl] at ha
      dsimp only at ha
      by_cases hij : p.1 ≠ j
      · rw [if_pos hij] at ha
        injection ha with hc'
        subst hc'
        exact ⟨p.1, j, hij, rfl, rfl⟩
      · rw [if_neg hij] at ha
        exact absurd ha (by simp)
  · rw [reverseFor, List.mem_filterMap] at hr
    obtain ⟨q, _, hq⟩ := hr
    by_cases hcond : p.1 ≠ q.1 ∧
        (q.2.2.any (fun related => lowerStr p.2.1 == lowerStr related)) = true
    · rw [if_pos hcond] at hq
      injection hq with hc'
      subst hc'
      exact ⟨q.1, p.1, fun h => hcond.1 h.symm, rfl, rfl⟩
    · rw [if_neg hcond] at hq
      exact absurd hq (by simp)

/-- C3. No self-loops: for every list of (term, related-concepts) pairs no
inferred correlation has equal source and target, and for every parsed
entry list on which the handler succeeds no edge of the success payload
has equal source and target — even when an entry's `related_concepts`
includes its own term up to case, since both scans guard with `i != j`. -/
theorem noSelfLoops :
    (∀ (ws : List (String × List String)), ∀ c ∈ inferCorrelations ws,
      c.source ≠ c.target)
    ∧ (∀ (words : List WordEntry) (p : Payload),
        processEntries words = Except.ok p →
        ∀ e ∈ p.edges, e.source ≠ e.target) := by
  have main : ∀ (ws : List (String × List String)), ∀ c ∈ inferCorrelations ws,
      c.source ≠ c.target := by
    intro ws c hc heq
    obtain ⟨i, j, hij, hs, ht⟩ := corr_endpoints ws c hc
    rw [hs, ht] at heq
    exact hij (nodeId_inj heq)
  refine ⟨main, ?_⟩
  intro words p hp e he
  unfold processEntries at hp
  rcases hcs : correlationsE words with _ | cs
  · rw [hcs] at hp; exact absurd hp (by simp)
  · rw [hcs] at hp
    rcases hns : mkNodesE words with _ | ns
    · rw [hns] at hp; exact absurd hp (by simp)
    · rw [hns] at hp
      cases hp
      rw [mkEdges, List.mem_map] at he
      obtain ⟨q, hq, rfl⟩ := he
      have hqc : q.2 ∈ cs := List.snd_mem_of_mem_enum hq
      unfold correlationsE at hcs
      rcases hts : getTerms words with _ | ts
      · rw [hts] at hcs; cases hcs
      · rw [hts] at hcs
        cases hcs
        exact main _ q.2 hqc

/-- C3 witness: in the graph generated for the concrete pair of entries
`A -> [B]`, `B -> []` the emitted correlation and the resulting payload
edge both connect two distinct node identifiers. -/
theorem noSelfLoops_witness :
    (⟨"node-0", "node-1", "A includes B as a related concept"⟩ : Corr).source ≠
      (⟨"node-0", "node-1", "A includes B as a related concept"⟩ : Corr).target ∧
    (⟨"edge-0", "node-0", "node-1", true, ⟨"#3b82f6", 2⟩,
      "A includes B as a related concept"⟩ : Edge).source ≠
      (⟨"edge-0", "node-0", "node-1", true, ⟨"#3b82f6", 2⟩,
        "A includes B as a related concept"⟩ : Edge).target :=
  ⟨noSelfLoops.1 [("A", ["a", "B"]), ("B", [])]
      ⟨"node-0", "node-1", "A includes B as a related concept"⟩ (by decide),
   noSelfLoops.2 exEntriesAB exPayloadAB rfl
      ⟨"edge-0", "node-0", "node-1", true, ⟨"#3b82f6", 2⟩,
        "A includes B as a related concept"⟩ (by decide)⟩

/-- C2. For the parsed entries `[{term: A, related_concepts: [B]},
{term: B, related_concepts: []}]` (remaining fields filled in), the
request succeeds and the emitted edge list contains an edge from `node-0`
to `node-1` whose explanation contains `A includes B`; the documented
forward/reverse redundancy shows as exactly two such parallel edges. -/
theorem correlationExampleAB :
    ∃ p, processEntries exEntriesAB = Except.ok p ∧
      p.edges.length = 2 ∧
      ∃ e ∈ p.edges, e.source = "node-0" ∧ e.target = "node-1" ∧
        ∃ l r, e.explanation = l ++ "A includes B" ++ r := by
  refine ⟨exPayloadAB, rfl, by decide,
    ⟨"edge-0", "node-0", "node-1", true, ⟨"#3b82f6", 2⟩,
      "A includes B as a related concept"⟩, by decide, rfl, rfl,
    "", " as a related concept", rfl⟩

/-- Closed form of the node comprehension from start index `i`, for
entries that carry all five keys. -/
theorem mkNodesFrom_spec :
    ∀ (words : List WordEntry) (i : Nat), (∀ w ∈ words, hasAllKeys w) →
      ∃ ns, mkNodesFrom i words = Except.ok ns ∧
        ns.length = words.length ∧
        ∀ k w, words.get? k = some w →
          ns.get? k = some
            { id := nodeId (i + k),
              data := ⟨w.term.getD "", w.summary.getD "", w.description.getD "",
                       w.related_concepts.getD [], w.examples.getD []⟩,
              position := ⟨(i + k) * 250, 0⟩, type := "wordNode",
              sourcePosition := "right", targetPosition := "left" } := by
  intro words
  induction words with
  | nil =>
    intro i _
    exact ⟨[], rfl, rfl, fun k w hk => by simp at hk⟩
  | cons w ws ih =>
    intro i hall
    obtain ⟨ht, hsu, hde, hrc, hex⟩ := hall w (by simp)
    obtain ⟨t, ht⟩ := Option.isSome_iff_exists.mp ht
    obtain ⟨su, hsu⟩ := Option.isSome_iff_exists.mp hsu
    obtain ⟨de, hde⟩ := Option.isSome_iff_exists.mp hde
    obtain ⟨rc, hrc⟩ := Option.isSome_iff_exists.mp hrc
    obtain ⟨ex, hex⟩ := Option.isSome_iff_exists.mp hex
    obtain ⟨ns, hns, hlen, hget⟩ := ih (i + 1) (fun w' hw' => hall w' (by simp [hw']))
    refine ⟨{ id := nodeId i, data := ⟨t, su, de, rc, ex⟩,
              position := ⟨i * 250, 0⟩, type := "wordNode",
              sourcePosition := "right", targetPosition := "left" } :: ns,
      ?_, by simp [hlen], ?_⟩
    · simp [mkNodesFrom, mkNode, ht, hsu, hde, hrc, hex, hns]
    · intro k w' hk
      match k with
      | 0 =>
        simp at hk
        subst hk
        simp [ht, hsu, hde, hrc, hex]
      | k + 1 =>
        simp only [List.get?_cons_succ] at hk ⊢
        have e : i + 1 + k = i + (k + 1) := by omega
        rw [← e]
        exact hget k w' hk

/-- C4. Node synthesis: for `N` parsed entries that carry all five keys,
the payload has exactly `N` nodes; the `k`-th has id `node-k`, position
`x = k * 250`, `y = 0`, type `wordNode`, anchors `right`/`left`, and its
data fields copied from the `k`-th entry. -/
theorem nodeSynthesis (words : List WordEntry)
    (hall : ∀ w ∈ words, hasAllKeys w) :
    ∃ ns, mkNodesE words = Except.ok ns ∧
      ns.length = words.length ∧
      ∀ k w, words.get? k = some w →
        ns.get? k = some
          { id := nodeId k,
            data := ⟨w.term.getD "", w.summary.getD "", w.description.getD "",
                     w.related_concepts.getD [], w.examples.getD []⟩,
            position := ⟨k * 250, 0⟩, type := "wordNode",
            sourcePosition := "right", targetPosition := "left" } := by
  obtain ⟨ns, hns, hlen, hget⟩ := mkNodesFrom_spec words 0 hall
  exact ⟨ns, hns, hlen, fun k w hk => by simpa using hget k w hk⟩

/-- C4 witness: the two-entry example produces two nodes at `x = 0` and
`x = 250` with the entries' fields copied over. -/
theorem nodeSynthesis_witness :
    (∀ w ∈ exEntriesAB, hasAllKeys w) ∧
    (∃ ns, mkNodesE exEntriesAB = Except.ok ns ∧
      ns.length = exEntriesAB.length ∧
      ∀ k w, exEntriesAB.get? k = some w →
        ns.get? k = some
          { id := nodeId k,
            data := ⟨w.term.getD "", w.summary.getD "", w.description.getD "",
                     w.related_concepts.getD [], w.examples.getD []⟩,
            position := ⟨k * 250, 0⟩, type := "wordNode",
            sourcePosition := "right", targetPosition := "left" }) :=
  ⟨by decide, nodeSynthesis exEntriesAB (by decide)⟩

/-- `find?` over a reversed list returns exactly the *last* matching
element of the original list. -/
theorem find?_reverse_eq_some {α : Type} (p : α → Bool) :
    ∀ (l : List α) (x : α),
      l.reverse.find? p = some x ↔
        ∃ k, l.get? k = some x ∧ p x = true ∧
          ∀ k' y, k < k' → l.get? k' = some y → p y = false := by
  intro l
  induction l with
  | nil => intro x; simp
  | cons b l ih =>
    intro x
    rw [List.reverse_cons, List.find?_append]
    rcases hrev : l.reverse.find? p with _ | y
    · have hnone : ∀ z ∈ l, p z = false := by
        rw [List.find?_eq_none] at hrev
        intro z hz
        simpa using hrev z (by simpa using hz)
      by_cases hpb : p b = true
      · simp only [Option.none_or, List.find?_cons, hpb]
        constructor
        · intro h
          injection h with h
          subst h
          refine ⟨0, rfl, hpb, ?_⟩
          intro k' y hk' hy
          match k' with
          | m + 1 =>
            exact hnone y (List.get?_mem (by simpa using hy))
        · rintro ⟨k, hk, hpx, hlater⟩
          match k with
          | 0 => simp at hk; rw [hk]
          | m + 1 =>
            have hx : x ∈ l := List.get?_mem (by simpa using hk)
            exact absurd hpx (by simp [hnone x hx])
      · have hfb : p b = false := by
          revert hpb; cases p b <;> simp
        simp only [Option.none_or, List.find?_cons, hfb]
        constructor
        · intro h; cases h
        · rintro ⟨k, hk, hpx, hlater⟩
          match k with
          | 0 =>
            simp at hk
            subst hk
            exact absurd hpx hpb
          | m + 1 =>
            have hx : x ∈ l := List.get?_mem (by simpa using hk)
            exact absurd hpx (by simp [hnone x hx])
    · rw [Option.or_some]
      constructor
      · intro h
        injection h with h
        subst h
        obtain ⟨k, hk, hpx, hlater⟩ := (ih y).mp hrev
        refine ⟨k + 1, by simpa using hk, hpx, ?_⟩
        intro k' z hk' hz
        match k' with
        | m + 1 =>
          exact hlater m z (by omega) (by simpa using hz)
      · rintro ⟨k, hk, hpx, hlater⟩
        match k with
        | 0 =>
          simp at hk
          subst hk
          have hy : y ∈ l := by
            have := List.mem_of_find?_eq_some hrev
            simpa using this
          obtain ⟨m, hm⟩ := List.get?_of_mem hy
          have hpy : p y = true := List.find?_some hrev
          have := hlater (m + 1) y (by omega) (by simpa using hm)
          rw [hpy] at this
          cases this
        | m + 1 =>
          have hsome : l.reverse.find? p = some x := by
            rw [ih x]
            exact ⟨m, by simpa using hk, hpx, fun m' z hm' hz =>
              hlater (m' + 1) z (by omega) (by simpa using hz)⟩
          rw [hrev] at hsome
          injection hsome with h
          rw [h]

/-- The `k`-th insertion of `term_to_index` is entry `k`'s lowercased
term, mapped to `k`. -/
theorem get?_mkTermToIndex (ts : List String) (k : Nat) :
    (mkTermToIndex ts).get? k = (ts.get? k).map (fun t => (lowerStr t, k)) := by
  rw [mkTermToIndex, List.get?_map, List.enum_get?]
  cases ts.get? k <;> rfl

/-- C9. Last-write-wins: the `term_to_index` mapping consulted by the
forward scan resolves a key to `some j` exactly when entry `j`'s
lowercased term is that key and no later entry has the same lowercased
term — so with duplicate terms every forward-scan match resolves to the
last such entry. -/
theorem lastWriteWins (ts : List String) (key : String) (j : Nat) :
    lookupLast (mkTermToIndex ts) key = some j ↔
      ∃ t, ts.get? j = some t ∧ lowerStr t = key ∧
        ∀ j' t', j < j' → ts.get? j' = some t' → lowerStr t' ≠ key := by
  unfold lookupLast
  rw [Option.map_eq_some']
  constructor
  · rintro ⟨x, hfind, hx2⟩
    rw [find?_reverse_eq_some] at hfind
    obtain ⟨k, hk, hpx, hlater⟩ := hfind
    rw [get?_mkTermToIndex] at hk
    rcases hts : ts.get? k with _ | t
    · rw [hts] at hk; cases hk
    · rw [hts] at hk
      simp only [Option.map_some'] at hk
      injection hk with hk
      subst hk
      simp only at hx2
      subst hx2
      have hlow : lowerStr t = key := by
        simpa using hpx
      refine ⟨t, hts, hlow, ?_⟩
      intro j' t' hj' ht' heq
      have := hlater j' (lowerStr t', j') hj'
        (by rw [get?_mkTermToIndex, ht']; rfl)
      rw [heq] at this
      simp at this
  · rintro ⟨t, hts, hlow, hlater⟩
    refine ⟨(lowerStr t, j), ?_, rfl⟩
    rw [find?_reverse_eq_some]
    refine ⟨j, by rw [get?_mkTermToIndex, hts]; rfl, by simp [hlow], ?_⟩
    intro k' y hk' hy
    rw [get?_mkTermToIndex] at hy
    rcases hts' : ts.get? k' with _ | t'
    · rw [hts'] at hy; cases hy
    · rw [hts'] at hy
      simp only [Option.map_some'] at hy
      injection hy with hy
      subst hy
      have := hlater k' t' hk' hts'
      simpa using this

/-- C9 witness: with two entries whose terms agree up to case, lookup of
the shared key resolves to index 1, the later entry. -/
theorem lastWriteWins_witness :
    lookupLast (mkTermToIndex ["Graph", "graph"]) "graph" = some 1 :=
  (lastWriteWins ["Graph", "graph"] "graph" 1).mpr
    ⟨"graph", by decide, by decide, by
      intro j' t' hj' ht'
      match j' with
      | 0 => omega
      | 1 => omega
      | m + 2 => simp at ht'⟩

theorem flatMap_congr_mem {α β : Type} :
    ∀ (l : List α) (f g : α → List β), (∀ a ∈ l, f a = g a) →
      l.flatMap f = l.flatMap g := by
  intro l
  induction l with
  | nil => intro f g _; rfl
  | cons a l ih =>
    intro f g h
    rw [List.flatMap_cons, List.flatMap_cons, h a (by simp),
      ih f g (fun b hb => h b (by simp [hb]))]

theorem filterMap_congr_mem {α β : Type} :
    ∀ (l : List α) (f g : α → Option β), (∀ a ∈ l, f a = g a) →
      l.filterMap f = l.filterMap g := by
  intro l
  induction l with
  | nil => intro f g _; rfl
  | cons a l ih =>
    intro f g h
    rw [List.filterMap_cons, List.filterMap_cons, h a (by simp),
      ih f g (fun b hb => h b (by simp [hb]))]

/-- Iterating `flatMap` over an enumerated list is iterating over the
index range, fetching each element. -/
theorem enumFrom_flatMap {α β : Type} (f : Nat × α → List β) :
    ∀ (l : List α) (n : Nat),
      (l.enumFrom n).flatMap f =
        (List.range l.length).flatMap
          (fun i => ((l.get? i).map (fun a => f (n + i, a))).getD []) := by
  intro l
  induction l with
  | nil => intro n; rfl
  | cons a l ih =>
    intro n
    rw [show (a :: l).enumFrom n = (n, a) :: l.enumFrom (n + 1) from rfl,
      List.flatMap_cons, ih (n + 1),
      show (a :: l).length = l.length + 1 from rfl,
      List.range_succ_eq_map, List.flatMap_cons, List.flatMap_map]
    congr 1
    apply flatMap_congr_mem
    intro i _
    simp only [Function.comp, List.get?_cons_succ]
    rw [show n + 1 + i = n + Nat.succ i from by omega]

/-- Iterating `filterMap` over an enumerated list is iterating over the
index range, fetching each element. -/
theorem enumFrom_filterMap {α β : Type} (f : Nat × α → Option β) :
    ∀ (l : List α) (n : Nat),
      (l.enumFrom n).filterMap f =
        (List.range l.length).filterMap
          (fun i => (l.get? i).bind (fun a => f (n + i, a))) := by
  intro l
  induction l with
  | nil => intro n; rfl
  | cons a l ih =>
    intro n
    rw [show (a :: l).enumFrom n = (n, a) :: l.enumFrom (n + 1) from rfl,
      List.filterMap_cons, ih (n + 1),
      show (a :: l).length = l.length + 1 from rfl,
      List.range_succ_eq_map, List.filterMap_cons, List.filterMap_map]
    have h0 : ((a :: l).get? 0).bind (fun x => f (n + 0, x)) = f (n, a) := by
      simp
    rw [h0]
    have hL : (List.range l.length).filterMap
          ((fun i => ((a :: l).get? i).bind (fun x => f (n + i, x))) ∘ Nat.succ) =
        (List.range l.length).filterMap
          (fun i => (l.get? i).bind (fun x => f (n + 1 + i, x))) := by
      apply filterMap_congr_mem
      intro i _
      simp only [Function.comp, List.get?_cons_succ]
      rw [show n + Nat.succ i = n + 1 + i from by omega]
    rw [hL]

/-- C1 counterexample: for the entries `A -> [B]`, `B -> []` the code's
reverse scan emits the single correlation `node-0 -> node-1`
(`A includes B ...`), while the reverse scan as claimed would emit
`node-1 -> node-0` (`B includes A ...`). -/
theorem reverseScanClaim_counterexample :
    reverseCorrs [("A", ["B"]), ("B", [])] ≠
      claimedReverseScan [("A", ["B"]), ("B", [])] := by decide

/-- C1 (amended). Reverse-scan correlation step: for every pair list, the
reverse scan iterates over each ordered pair `(i, j)` of distinct entries
(index order for `i`, then for `j`) and, exactly when entry `i`'s term
(compared case-insensitively) appears anywhere in entry `j`'s
related-concepts list, emits the correlation `(j, i)` with explanation
`<term_j> includes <term_i> as a related concept`; no reverse-scan
correlation is emitted for a pair where that condition fails. -/
theorem reverseScanMatchesAmended (ws : List (String × List String)) :
    reverseCorrs ws = amendedReverseScan ws := by
  unfold reverseCorrs amendedReverseScan
  rw [show ws.enum = ws.enumFrom 0 from rfl, enumFrom_flatMap]
  apply flatMap_congr_mem
  intro i hi
  have hi' : i < ws.length := List.mem_range.mp hi
  obtain ⟨wi, hwi⟩ : ∃ wi, ws.get? i = some wi :=
    ⟨ws.get ⟨i, hi'⟩, List.get?_eq_get hi'⟩
  rw [hwi]
  simp only [Option.map_some', Option.getD_some, Nat.zero_add]
  unfold reverseFor
  rw [enumFrom_filterMap]
  apply filterMap_congr_mem
  intro j _
  rcases hwj : ws.get? j with _ | wj
  · rfl
  · dsimp only
    simp only [Nat.zero_add]
    have horient : (fun related => lowerStr wi.1 == lowerStr related)
        = (fun c => lowerStr c == lowerStr wi.1) := by
      funext c
      exact Bool.beq_comm
    rw [horient]
    rfl

/-- C7. Defaulting: a request whose body carries neither key behaves
exactly like `{topic: "Technology", num_words: 5}`, and in general an
absent `topic` defaults to `Technology` and an absent `num_words` to `5`
(`data.get('topic', 'Technology')`, `data.get('num_words', 5)`). -/
theorem defaulting :
    (∀ (env : Env) (gen : String → Except String String)
        (decode : String → Option Json),
      handleRequest ⟨none, none⟩ env gen decode =
        handleRequest ⟨some "Technology", some 5⟩ env gen decode)
    ∧ (∀ (b : RequestBody) (env : Env) (gen : String → Except String String)
        (decode : String → Option Json),
      handleRequest b env gen decode =
        handleRequest ⟨some (b.topic.getD "Technology"),
          some (b.num_words.getD 5)⟩ env gen decode) :=
  ⟨fun _ _ _ => rfl, fun _ _ _ _ => rfl⟩

/-- The handler reads the environment only through the truthiness test on
the primary variable. -/
theorem handleRequest_truthy_congr (b : RequestBody) (e1 e2 : Env)
    (gen : String → Except String String) (decode : String → Option Json)
    (h : truthy e1.google = truthy e2.google) :
    handleRequest b e1 gen decode = handleRequest b e2 gen decode := by
  unfold handleRequest
  rw [h]

/-- C8. Credential fallback: starting the process with only the secondary
variable (`GEMINI_API_KEY`) set to `v` yields request behaviour identical
to starting it with only the primary variable (`GOOGLE_API_KEY`) set to
`v`; for truthy `v` the value is copied into the primary slot at startup,
so later credential reads observe `v` in both configurations. -/
theorem credentialFallback (v : String) :
    (∀ (body : RequestBody) (gen : String → Except String String)
        (decode : String → Option Json),
      handleRequest body (startup ⟨none, some v⟩) gen decode =
        handleRequest body (startup ⟨some v, none⟩) gen decode)
    ∧ (truthy (some v) = true →
      (startup ⟨none, some v⟩).google = some v ∧
      (startup ⟨some v, none⟩).google = some v) := by
  constructor
  · intro body gen decode
    apply handleRequest_truthy_congr
    by_cases hv : v = ""
    · subst hv
      rfl
    · have hvt : truthy (some v) = true := by
        simp [truthy, hv]
      simp [startup, truthy, hvt, hv]
  · intro hvt
    have hv : ¬ v = "" := by
      simpa [truthy] using hvt
    constructor
    · simp [startup, truthy, hv]
    · simp [startup, truthy, hv]

/-- C8 witness: with the concrete credential `k`, a request behaves the
same whichever variable carried it, and both startups leave `k` in the
primary slot. -/
theorem credentialFallback_witness :
    (handleRequest ⟨none, none⟩ (startup ⟨none, some "k"⟩)
        (fun _ => Except.error "boom") (fun _ => none) =
      handleRequest ⟨none, none⟩ (startup ⟨some "k", none⟩)
        (fun _ => Except.error "boom") (fun _ => none)) ∧
    truthy (some "k") = true ∧
    (startup ⟨none, some "k"⟩).google = some "k" ∧
    (startup ⟨some "k", none⟩).google = some "k" :=
  ⟨(credentialFallback "k").1 ⟨none, none⟩ (fun _ => Except.error "boom")
      (fun _ => none),
   by decide,
   ((credentialFallback "k").2 (by decide)).1,
   ((credentialFallback "k").2 (by decide)).2⟩

/-! The greedy-extraction characterisation -/

theorem firstBrace_eq_some :
    ∀ (cs : List Char) (i : Nat),
      firstBrace cs = some i ↔
        cs.get? i = some lbrace ∧ ∀ i', i' < i → cs.get? i' ≠ some lbrace := by
  intro cs
  induction cs with
  | nil => intro i; simp [firstBrace]
  | cons c cs ih =>
    intro i
    by_cases hc : c = lbrace
    · subst hc
      simp only [firstBrace, if_pos rfl]
      constructor
      · intro h
        injection h with h
        subst h
        exact ⟨rfl, fun i' hi' => by omega⟩
      · rintro ⟨hget, hmin⟩
        match i with
        | 0 => rfl
        | m + 1 =>
          have h0 : (lbrace :: cs).get? 0 = some lbrace := rfl
          exact absurd h0 (hmin 0 (by omega))
    · simp only [firstBrace, if_neg hc]
      match i with
      | 0 =>
        simp only [Option.map_eq_some']
        constructor
        · rintro ⟨k, _, hk⟩
          omega
        · rintro ⟨hget, _⟩
          simp at hget
          exact absurd hget hc
      | m + 1 =>
        rw [Option.map_eq_some']
        constructor
        · rintro ⟨k, hk, hk1⟩
          have hkm : k = m := by omega
          rw [hkm] at hk
          obtain ⟨hget, hmin⟩ := (ih m).mp hk
          refine ⟨by simpa using hget, ?_⟩
          intro i' hi'
          match i' with
          | 0 =>
            intro h
            simp at h
            exact hc h
          | k' + 1 =>
            simpa using hmin k' (by omega)
        · rintro ⟨hget, hmin⟩
          refine ⟨m, (ih m).mpr ⟨by simpa using hget, ?_⟩, rfl⟩
          intro k' hk'
          simpa using hmin (k' + 1) (by omega)

theorem firstBrace_eq_none :
    ∀ (cs : List Char), firstBrace cs = none ↔ lbrace ∉ cs := by
  intro cs
  induction cs with
  | nil => simp [firstBrace]
  | cons c cs ih =>
    by_cases hc : c = lbrace
    · subst hc
      simp [firstBrace]
    · simp only [firstBrace, if_neg hc, Option.map_eq_none', List.mem_cons]
      rw [ih]
      constructor
      · intro h hmem
        rcases hmem with h' | h'
        · exact hc h'.symm
        · exact h h'
      · intro h
        exact fun hmem => h (Or.inr hmem)

theorem lastClose_mem :
    ∀ (cs : List Char) (k : Nat), lastClose cs = some k → rbrace ∈ cs := by
  intro cs
  induction cs with
  | nil => intro k h; cases h
  | cons c cs ih =>
    intro k h
    unfold lastClose at h
    rcases hlc : lastClose cs with _ | m
    · rw [hlc] at h
      by_cases hc : c = rbrace
      · simp [hc]
      · rw [if_neg hc] at h
        cases h
    · rw [hlc] at h
      exact List.mem_cons_of_mem c (ih m hlc)

theorem lastClose_eq_none :
    ∀ (cs : List Char), lastClose cs = none ↔ rbrace ∉ cs := by
  intro cs
  induction cs with
  | nil => simp [lastClose]
  | cons c cs ih =>
    unfold lastClose
    rcases hlc : lastClose cs with _ | m
    · by_cases hc : c = rbrace
      · subst hc
        simp
      · rw [if_neg hc]
        have hnot : rbrace ∉ cs := ih.mp hlc
        simp only [List.mem_cons]
        constructor
        · intro _ hmem
          rcases hmem with h' | h'
          · exact hc h'.symm
          · exact hnot h'
        · intro _
          trivial
    · constructor
      · intro h; cases h
      · intro h
        exact absurd (List.mem_cons_of_mem c (lastClose_mem cs m hlc)) h

theorem lastClose_eq_some :
    ∀ (cs : List Char) (j : Nat),
      lastClose cs = some j ↔
        cs.get? j = some rbrace ∧ ∀ j', j < j' → cs.get? j' ≠ some rbrace := by
  intro cs
  induction cs with
  | nil => intro j; simp [lastClose]
  | cons c cs ih =>
    intro j
    unfold lastClose
    rcases hlc : lastClose cs with _ | k
    · have hnot : rbrace ∉ cs := (lastClose_eq_none cs).mp hlc
      have htail : ∀ m, cs.get? m ≠ some rbrace := by
        intro m hm
        exact hnot (List.get?_mem hm)
      by_cases hc : c = rbrace
      · subst hc
        rw [if_pos rfl]
        constructor
        · intro h
          injection h with h
          subst h
          refine ⟨rfl, ?_⟩
          intro j' hj'
          match j' with
          | m + 1 => simpa using htail m
        · rintro ⟨hget, _⟩
          match j with
          | 0 => rfl
          | m + 1 => exact absurd (by simpa using hget) (htail m)
      · rw [if_neg hc]
        constructor
        · intro h; cases h
        · rintro ⟨hget, _⟩
          match j with
          | 0 =>
            simp at hget
            exact absurd hget hc
          | m + 1 => exact absurd (by simpa using hget) (htail m)
    · obtain ⟨hget, hmax⟩ := (ih k).mp hlc
      constructor
      · intro h
        injection h with h
        subst h
        refine ⟨by simpa using hget, ?_⟩
        intro j' hj'
        match j' with
        | m + 1 => simpa using hmax m (by omega)
      · rintro ⟨hget', hmax'⟩
        match j with
        | 0 =>
          exact absurd (by simpa using hget)
            (hmax' (k + 1) (by omega))
        | m + 1 =>
          have : lastClose cs = some m := by
            rw [ih m]
            refine ⟨by simpa using hget', ?_⟩
            intro m' hm'
            simpa using hmax' (m' + 1) (by omega)
          rw [hlc] at this
          injection this with h
          rw [h]

/-- C5. Greedy JSON extraction: whenever the text has an opening curly
bracket somewhere before a closing one, the span handed to the decoder is
exactly the substring from the *first* opening bracket to the *last*
closing bracket of the text, whatever prose surrounds it; with no such
span the request fails with `Could not find JSON in response`. -/
theorem greedyExtraction (s : String) :
    ((∃ i j, i < j ∧ s.data.get? i = some lbrace ∧
        s.data.get? j = some rbrace) →
      ∃ i j, i < j ∧
        s.data.get? i = some lbrace ∧
        (∀ i', i' < i → s.data.get? i' ≠ some lbrace) ∧
        s.data.get? j = some rbrace ∧
        (∀ j', j < j' → s.data.get? j' ≠ some rbrace) ∧
        jsonSpan s = some ⟨(s.data.drop i).take (j + 1 - i)⟩ ∧
        ∀ decode, afterText s decode =
          decodeStage ⟨(s.data.drop i).take (j + 1 - i)⟩ decode)
    ∧ ((¬ ∃ i j, i < j ∧ s.data.get? i = some lbrace ∧
        s.data.get? j = some rbrace) →
      jsonSpan s = none ∧
      ∀ decode, afterText s decode =
        Except.error "Could not find JSON in response") := by
  constructor
  · rintro ⟨i0, j0, hij, hopen, hclose⟩
    rcases hfb : firstBrace s.data with _ | i
    · rw [firstBrace_eq_none] at hfb
      exact absurd (List.get?_mem hopen) hfb
    · rcases hlc : lastClose s.data with _ | j
      · rw [lastClose_eq_none] at hlc
        exact absurd (List.get?_mem hclose) hlc
      · obtain ⟨hfo, hfmin⟩ := (firstBrace_eq_some s.data i).mp hfb
        obtain ⟨hlo, hlmax⟩ := (lastClose_eq_some s.data j).mp hlc
        have hii0 : i ≤ i0 := by
          by_contra hgt
          exact hfmin i0 (by omega) hopen
        have hjj0 : j0 ≤ j := by
          by_contra hgt
          exact hlmax j0 (by omega) hclose
        have hij' : i < j := by omega
        have hspan : jsonSpan s = some ⟨(s.data.drop i).take (j + 1 - i)⟩ := by
          unfold jsonSpan
          rw [hfb, hlc]
          dsimp only
          rw [if_pos hij']
        refine ⟨i, j, hij', hfo, hfmin, hlo, hlmax, hspan, ?_⟩
        intro decode
        unfold afterText
        rw [hspan]
  · intro hno
    have hspan : jsonSpan s = none := by
      unfold jsonSpan
      rcases hfb : firstBrace s.data with _ | i
      · rfl
      · rcases hlc : lastClose s.data with _ | j
        · rfl
        · have hnij : ¬ i < j := by
            intro hij
            obtain ⟨hfo, _⟩ := (firstBrace_eq_some s.data i).mp hfb
            obtain ⟨hlo, _⟩ := (lastClose_eq_some s.data j).mp hlc
            exact hno ⟨i, j, hij, hfo, hlo⟩
          dsimp only
          rw [if_neg hnij]
    refine ⟨hspan, fun decode => ?_⟩
    unfold afterText
    rw [hspan]

/-- C5 witness: §8.5's example text — prose, then a JSON object, then
prose — has its bracketed span at positions 20..31 and is extracted. -/
theorem greedyExtraction_witness :
    (∃ i j, i < j ∧ exText.data.get? i = some lbrace ∧
      exText.data.get? j = some rbrace) ∧
    (∃ i j, i < j ∧
      exText.data.get? i = some lbrace ∧
      (∀ i', i' < i → exText.data.get? i' ≠ some lbrace) ∧
      exText.data.get? j = some rbrace ∧
      (∀ j', j < j' → exText.data.get? j' ≠ some rbrace) ∧
      jsonSpan exText = some ⟨(exText.data.drop i).take (j + 1 - i)⟩ ∧
      ∀ decode, afterText exText decode =
        decodeStage ⟨(exText.data.drop i).take (j + 1 - i)⟩ decode) :=
  ⟨⟨20, 31, by decide, by decide, by decide⟩,
   (greedyExtraction exText).1 ⟨20, 31, by decide, by decide, by decide⟩⟩

/-- C6. Schema failure: whenever the extracted span decodes to a value
that is not an object or lacks a `words` key, the decode stage fails with
`Invalid JSON structure`, and any request whose pipeline reaches that
span answers with the 500 `{'error': ...}` shape and no payload. -/
theorem schemaFailure (decode : String → Option Json) (sub : String)
    (v : Json) (hdec : decode sub = some v)
    (hbad : hasWordsDict v = false) :
    decodeStage sub decode = Except.error "Invalid JSON structure" ∧
    ∀ (body : RequestBody) (env : Env)
        (gen : String → Except String String) (text : String),
      truthy env.google = true →
      gen (buildPrompt (body.topic.getD "Technology")
        (body.num_words.getD 5)) = Except.ok text →
      (text == "") = false →
      jsonSpan text = some sub →
      handleRequest body env gen decode =
        Resp.failure "Invalid JSON structure" ∧
      (handleRequest body env gen decode).status = 500 := by
  have hstage : decodeStage sub decode =
      Except.error "Invalid JSON structure" := by
    unfold decodeStage
    rw [hdec]
    dsimp only
    cases v with
    | obj fs =>
      have : jLookup fs "words" = none := by
        have hb : (jLookup fs "words").isSome = false := by
          simpa [hasWordsDict] using hbad
        exact Option.not_isSome_iff_eq_none.mp (by simp [hb])
      dsimp only
      rw [this]
    | null => rfl
    | bool b => rfl
    | num n => rfl
    | str s => rfl
    | arr xs => rfl
  refine ⟨hstage, ?_⟩
  intro body env gen text htr hgen htext hspan
  have hreq : handleRequest body env gen decode =
      Resp.failure "Invalid JSON structure" := by
    unfold handleRequest
    rw [htr]
    simp only [Bool.not_true, Bool.false_eq_true, if_false]
    rw [hgen]
    dsimp only
    rw [htext]
    simp only [Bool.false_eq_true, if_false]
    unfold afterText
    rw [hspan]
    dsimp only
    rw [hstage]
  exact ⟨hreq, by rw [hreq]; rfl⟩

/-- C6 witness: the §8.6 scenario with extracted JSON
`{"notwords": []}`. -/
theorem schemaFailure_witness :
    exBadDecode exBadText = some (Json.obj [("notwords", Json.arr [])]) ∧
    hasWordsDict (Json.obj [("notwords", Json.arr [])]) = false ∧
    decodeStage exBadText exBadDecode =
      Except.error "Invalid JSON structure" ∧
    handleRequest ⟨none, none⟩ ⟨some "k", none⟩
      (fun _ => Except.ok exBadText) exBadDecode =
      Resp.failure "Invalid JSON structure" ∧
    (handleRequest ⟨none, none⟩ ⟨some "k", none⟩
      (fun _ => Except.ok exBadText) exBadDecode).status = 500 :=
  have h := schemaFailure exBadDecode exBadText
    (Json.obj [("notwords", Json.arr [])]) rfl rfl
  have h2 := h.2 ⟨none, none⟩ ⟨some "k", none⟩
    (fun _ => Except.ok exBadText) exBadText rfl rfl rfl rfl
  ⟨rfl, rfl, h.1, h2.1, h2.2⟩

/-- The `term_to_index` comprehension succeeds when every entry carries a
`term` key. -/
theorem getTerms_isSome :
    ∀ (words : List WordEntry), (∀ w ∈ words, w.term.isSome = true) →
      ∃ ts, getTerms words = some ts := by
  intro words
  induction words with
  | nil => intro _; exact ⟨[], rfl⟩
  | cons w ws ih =>
    intro h
    obtain ⟨t, ht⟩ := Option.isSome_iff_exists.mp (h w (by simp))
    obtain ⟨ts, hts⟩ := ih (fun w' hw' => h w' (by simp [hw']))
    exact ⟨t :: ts, by simp [getTerms, ht, hts]⟩

/-- Filling a missing `related_concepts` key does not change the terms. -/
theorem getTerms_map_fillRc :
    ∀ (words : List WordEntry),
      getTerms (words.map fillRc) = getTerms words := by
  intro words
  induction words with
  | nil => rfl
  | cons w ws ih => simp [getTerms, fillRc, ih]

/-- A node literal over an entry lacking `related_concepts` raises. -/
theorem mkNode_error_of_rc_none (i : Nat) (w : WordEntry)
    (hrc : w.related_concepts = none) :
    ∃ msg, mkNode i w = Except.error msg := by
  rcases ht : w.term with _ | t
  · exact ⟨"'term'", by simp [mkNode, ht]⟩
  rcases hsu : w.summary with _ | su
  · exact ⟨"'summary'", by simp [mkNode, ht, hsu]⟩
  rcases hde : w.description with _ | de
  · exact ⟨"'description'", by simp [mkNode, ht, hsu, hde]⟩
  exact ⟨"'related_concepts'", by simp [mkNode, ht, hsu, hde, hrc]⟩

/-- The node comprehension fails as soon as some entry lacks
`related_concepts`. -/
theorem mkNodesFrom_error :
    ∀ (words : List WordEntry) (i : Nat),
      (∃ w ∈ words, w.related_concepts = none) →
      ∃ msg, mkNodesFrom i words = Except.error msg := by
  intro words
  induction words with
  | nil =>
    intro i h
    simp at h
  | cons w ws ih =>
    intro i h
    rcases hmk : mkNode i w with msg | n
    · exact ⟨msg, by simp [mkNodesFrom, hmk]⟩
    · have hwrc : ¬ w.related_concepts = none := by
        intro hrc
        obtain ⟨msg, hmsg⟩ := mkNode_error_of_rc_none i w hrc
        rw [hmk] at hmsg
        cases hmsg
      obtain ⟨w', hw', hrc'⟩ := h
      rcases List.mem_cons.mp hw' with heq | hw''
      · exact absurd (heq ▸ hrc') hwrc
      · obtain ⟨msg, hmsg⟩ := ih (i + 1) ⟨w', hw'', hrc'⟩
        exact ⟨msg, by simp [mkNodesFrom, hmk, hmsg]⟩

/-- C10. Missing-field asymmetry: when every entry has a `term` but some
entry lacks `related_concepts`, correlation inference still completes —
and is unchanged by filling the missing key with `[]` — but node assembly
raises `KeyError`, so the whole request fails with the 500
`{'error': ...}` shape and no graph is returned. -/
theorem missingFieldAsymmetry (words : List WordEntry)
    (hterm : ∀ w ∈ words, w.term.isSome = true)
    (hmiss : ∃ w ∈ words, w.related_concepts = none) :
    (∃ cs, correlationsE words = Except.ok cs) ∧
    correlationsE words = correlationsE (words.map fillRc) ∧
    (∃ msg, mkNodesE words = Except.error msg) ∧
    (∃ msg, processEntries words = Except.error msg) ∧
    (∀ (decode : String → Option Json) (sub text : String)
        (fs : List (String × Json)) (elems : List Json)
        (body : RequestBody) (env : Env)
        (gen : String → Except String String),
      truthy env.google = true →
      gen (buildPrompt (body.topic.getD "Technology")
        (body.num_words.getD 5)) = Except.ok text →
      (text == "") = false →
      jsonSpan text = some sub →
      decode sub = some (Json.obj fs) →
      jLookup fs "words" = some (Json.arr elems) →
      elems.map entryOf = words →
      ∃ msg, handleRequest body env gen decode = Resp.failure msg ∧
        (handleRequest body env gen decode).status = 500) := by
  obtain ⟨ts, hts⟩ := getTerms_isSome words hterm
  have hcorr : correlationsE words =
      Except.ok (inferCorrelations (ts.zip (words.map rcOf))) := by
    unfold correlationsE
    rw [hts]
  have hfill : correlationsE words = correlationsE (words.map fillRc) := by
    unfold correlationsE
    rw [getTerms_map_fillRc, hts, List.map_map]
    have : rcOf ∘ fillRc = rcOf := by
      funext w
      rfl
    rw [this]
  obtain ⟨nmsg, hnodes⟩ := mkNodesFrom_error words 0 hmiss
  have hproc : processEntries words = Except.error nmsg := by
    unfold processEntries
    rw [hcorr]
    dsimp only
    rw [show mkNodesE words = Except.error nmsg from hnodes]
  refine ⟨⟨_, hcorr⟩, hfill, ⟨nmsg, hnodes⟩, ⟨nmsg, hproc⟩, ?_⟩
  intro decode sub text fs elems body env gen htr hgen htext hspan hdec
    hwords hmap
  have hreq : handleRequest body env gen decode = Resp.failure nmsg := by
    unfold handleRequest
    rw [htr]
    simp only [Bool.not_true, Bool.false_eq_true, if_false]
    rw [hgen]
    dsimp only
    rw [htext]
    simp only [Bool.false_eq_true, if_false]
    unfold afterText
    rw [hspan]
    dsimp only
    unfold decodeStage
    rw [hdec]
    dsimp only
    rw [hwords]
    dsimp only
    unfold entriesOf
    dsimp only
    rw [hmap, hproc]
  exact ⟨nmsg, hreq, by rw [hreq]; rfl⟩

/-- C10 witness: a single entry with `term`, `summary`, `description` and
`examples` but no `related_concepts`; correlations succeed, node assembly
and the whole request fail. -/
theorem missingFieldAsymmetry_witness :
    (∀ w ∈ exMissing, w.term.isSome = true) ∧
    (∃ w ∈ exMissing, w.related_concepts = none) ∧
    (∃ cs, correlationsE exMissing = Except.ok cs) ∧
    (∃ msg, processEntries exMissing = Except.error msg) ∧
    (∃ msg, handleRequest ⟨none, none⟩ ⟨some "k", none⟩
        (fun _ => Except.ok "\x7bmock\x7d") (fun _ => some exMissingJson) =
        Resp.failure msg ∧
      (handleRequest ⟨none, none⟩ ⟨some "k", none⟩
        (fun _ => Except.ok "\x7bmock\x7d")
        (fun _ => some exMissingJson)).status = 500) :=
  have h := missingFieldAsymmetry exMissing (by decide) (by decide)
  ⟨by decide, by decide, h.1, h.2.2.2.1,
   h.2.2.2.2 (fun _ => some exMissingJson) "\x7bmock\x7d" "\x7bmock\x7d"
     [("words", Json.arr
        [Json.obj [("term", Json.str "A"), ("summary", Json.str "s"),
                   ("description", Json.str "d"), ("examples", Json.arr [])]])]
     [Json.obj [("term", Json.str "A"), ("summary", Json.str "s"),
                ("description", Json.str "d"), ("examples", Json.arr [])]]
     ⟨none, none⟩ ⟨some "k", none⟩ (fun _ => Except.ok "\x7bmock\x7d")
     rfl rfl rfl rfl rfl rfl (by decide)⟩

end WordGraph
